import Mathlib

/-!
Verification of the nsLTP 8CM search tool.

The development shallowly embeds the two Python source files:

* `2_8CM.py` — FASTA parsing (`parse_fasta`), the eight-cysteine-motif
  counter built on the regex `C.{2,70}C.{2,70}CC.{2,70}C.{0,70}C.{2,70}C.{2,70}C`
  applied with `re.findall` (non-overlapping, left-to-right, greedy
  backtracking), and the "two or more motifs" filter
  (`detect_two_or_more_8cm_motifs`).
* `8cm.py` — the exact-eight-cysteines filter
  (`extract_proteins_with_eight_cysteines`).

Residue strings and identifiers are modelled as `List Char`; file contents
as a list of lines; a possibly-unreadable file as an `Option` of its lines.
-/

/-- Python regex `.` without `re.DOTALL`: matches any character except a
newline.  This is the semantics of the spacer atoms `.{lo,hi}` in the
compiled motif pattern. -/
def dotM (c : Char) : Bool := c != '\n'

/-- One element of the compiled pattern: a literal character, or a greedy
bounded gap `.{lo,hi}`. -/
inductive Seg where
  | lit (c : Char)
  | gap (lo hi : Nat)
deriving DecidableEq, Repr

/-- The compiled form of the pattern literal
`r'C.{2,70}C.{2,70}CC.{2,70}C.{0,70}C.{2,70}C.{2,70}C'` from
`2_8CM.py` (`eight_cysteine_motif_regex`). -/
def eight_cysteine_motif_regex : List Seg :=
  [Seg.lit 'C', Seg.gap 2 70, Seg.lit 'C', Seg.gap 2 70, Seg.lit 'C',
   Seg.lit 'C', Seg.gap 2 70, Seg.lit 'C', Seg.gap 0 70, Seg.lit 'C',
   Seg.gap 2 70, Seg.lit 'C', Seg.gap 2 70, Seg.lit 'C']

/-- Greedy matching of a bounded gap `.{lo,hi}`: consume as many
(non-newline) characters as possible, backtracking downwards, before
handing the remaining input to the continuation `f` (the matcher for the
rest of the pattern).  This is the standard greedy-quantifier backtracking
order of the Python `re` engine. -/
def gapGreedy (f : List Char → Option (List Char)) : Nat → Nat → List Char → Option (List Char)
  | lo, 0, s => if lo = 0 then f s else none
  | lo, _ + 1, [] => if lo = 0 then f [] else none
  | lo, hi + 1, c :: s =>
    if dotM c then
      match gapGreedy f (lo - 1) hi s with
      | some r => some r
      | none => if lo = 0 then f (c :: s) else none
    else
      if lo = 0 then f (c :: s) else none

/-- Anchored match of a pattern at the start of the input, with Python
`re` semantics: literals must match exactly (case sensitively), gaps are
matched greedily with backtracking.  On success, returns the input
remaining after the matched span. -/
def matchSegs : List Seg → List Char → Option (List Char)
  | [], s => some s
  | Seg.lit _ :: _, [] => none
  | Seg.lit c :: rest, x :: s => if x = c then matchSegs rest s else none
  | Seg.gap lo hi :: rest, s => gapGreedy (matchSegs rest) lo hi s

/-- The scanning loop of `re.findall`: try an anchored match at each
position left to right; each successful match is counted and the scan
resumes strictly after the matched span.  `fuel` bounds the number of
steps; every step either consumes at least one character or finishes, so
`s.length + 1` steps always suffice (see `scanCountAux_fuel`). -/
def scanCountAux (P : List Seg) : Nat → List Char → Nat
  | 0, _ => 0
  | fuel + 1, s =>
    match matchSegs P s with
    | some r =>
      if r.length < s.length then scanCountAux P fuel r + 1
      else
        match s with
        | [] => 1
        | _ :: t => scanCountAux P fuel t + 1
    | none =>
      match s with
      | [] => 0
      | _ :: t => scanCountAux P fuel t

/-- Number of non-overlapping matches of `P` in `s`, scanning left to
right: the value of `len(P.findall(s))`. -/
def scanCount (P : List Seg) (s : List Char) : Nat :=
  scanCountAux P (s.length + 1) s

/-- `len(eight_cysteine_motif_regex.findall(sequence))` from
`detect_two_or_more_8cm_motifs` in `2_8CM.py`: the per-record motif
occurrence count. -/
def countMotifOccurrences (sequence : List Char) : Nat :=
  scanCount eight_cysteine_motif_regex sequence

/-- `detect_two_or_more_8cm_motifs` from `2_8CM.py`: keep exactly the
records whose motif count is at least 2, associating each kept identifier
with its exact count. -/
def detect_two_or_more_8cm_motifs (proteins_data : List (List Char × List Char)) :
    List (List Char × Nat) :=
  proteins_data.filterMap fun p =>
    let motif_count := countMotifOccurrences p.2
    if 2 ≤ motif_count then some (p.1, motif_count) else none

/-- Python `str.strip()`: remove leading and trailing whitespace. -/
def pyStrip (l : List Char) : List Char :=
  ((l.dropWhile Char.isWhitespace).reverse.dropWhile Char.isWhitespace).reverse

/-- `line.strip().startswith('>')`: the line is a header line. -/
def isHeaderLine (l : List Char) : Bool := (pyStrip l).head? == some '>'

/-- `not line.strip()`: the line is blank after stripping. -/
def isBlankLine (l : List Char) : Bool := pyStrip l == []

/-- `line[1:].split(' ')[0]` applied to a stripped header line: drop the
`>` and keep everything up to the first space character. -/
def headerId (line : List Char) : List Char :=
  (line.drop 1).takeWhile (fun c => c != ' ')

/-- Assignment `proteins[k] = v` on a Python dict modelled as an
association list: replace the value in place if the key is present,
otherwise append the new binding. -/
def dictInsert : List (List Char × List Char) → List Char → List Char →
    List (List Char × List Char)
  | [], k, v => [(k, v)]
  | (k', v') :: d, k, v =>
    if k' = k then (k', v) :: d else (k', v') :: dictInsert d k v

/-- The flush step of `parse_fasta`:
`if current_protein_id and current_sequence: proteins[id] = "".join(seq)`.
A record is stored only when the pending identifier is non-empty and at
least one sequence line has been collected. -/
def flushRecord (proteins : List (List Char × List Char))
    (currentId : Option (List Char)) (currentSeq : List (List Char)) :
    List (List Char × List Char) :=
  match currentId with
  | none => proteins
  | some pid =>
    if pid = [] ∨ currentSeq = [] then proteins
    else dictInsert proteins pid currentSeq.flatten

/-- The loop state of `parse_fasta`: the dict built so far, the pending
identifier (`None` before the first header), and the pending sequence
lines. -/
structure ParseState where
  proteins : List (List Char × List Char)
  currentId : Option (List Char)
  currentSeq : List (List Char)

/-- One iteration of the `for line in f` loop of `parse_fasta`. -/
def parseStep (st : ParseState) (l : List Char) : ParseState :=
  let line := pyStrip l
  if line = [] then st
  else if line.head? = some '>' then
    ⟨flushRecord st.proteins st.currentId st.currentSeq, some (headerId line), []⟩
  else
    ⟨st.proteins, st.currentId, st.currentSeq ++ [line]⟩

/-- The full loop of `parse_fasta` over the lines of the file, followed by
the final flush after the loop. -/
def parseLines (lines : List (List Char)) (st : ParseState) :
    List (List Char × List Char) :=
  let final := lines.foldl parseStep st
  flushRecord final.proteins final.currentId final.currentSeq

/-- `parse_fasta` from `2_8CM.py`.  A missing or unreadable file (both
`except` branches) is modelled as `none` and yields the empty collection;
a readable file is its list of lines. -/
def parse_fasta (source : Option (List (List Char))) :
    List (List Char × List Char) :=
  match source with
  | none => []
  | some lines => parseLines lines ⟨[], none, []⟩

/-- `extract_proteins_with_eight_cysteines` from `8cm.py` (its selection
logic): keep exactly the records whose residue string contains exactly 8
occurrences of the literal character `C`. -/
def extract_proteins_with_eight_cysteines
    (records : List (List Char × List Char)) : List (List Char × List Char) :=
  records.filter fun r => r.2.count 'C' == 8

/-! ## Declarative match semantics

`SegMatches seg l` / `SegsMatch segs l` say that the characters `l` are
one way of matching one segment / a whole segment list.  The operational
matcher `matchSegs` is proved sound and complete for this relation. -/

/-- The strings a single pattern segment can consume: a literal consumes
exactly itself; a gap `.{lo,hi}` consumes between `lo` and `hi`
non-newline characters. -/
def SegMatches : Seg → List Char → Prop
  | Seg.lit c, l => l = [c]
  | Seg.gap lo hi, l => lo ≤ l.length ∧ l.length ≤ hi ∧ ∀ c ∈ l, dotM c = true

/-- The strings a segment list can consume: one piece per segment, in
order. -/
def SegsMatch : List Seg → List Char → Prop
  | [], l => l = []
  | seg :: segs, l => ∃ l1 l2, l = l1 ++ l2 ∧ SegMatches seg l1 ∧ SegsMatch segs l2

theorem optionMatch_eq_some {o b : Option (List Char)} {r : List Char} :
    (match o with | some x => some x | none => b) = some r ↔
      o = some r ∨ (o = none ∧ b = some r) := by
  cases o <;> simp

theorem gapGreedy_sound (f : List Char → Option (List Char)) :
    ∀ hi lo s r, gapGreedy f lo hi s = some r →
      ∃ g t, s = g ++ t ∧ lo ≤ g.length ∧ g.length ≤ hi ∧
        (∀ c ∈ g, dotM c = true) ∧ f t = some r := by
  intro hi
  induction hi with
  | zero =>
    intro lo s r h
    simp only [gapGreedy] at h
    split at h
    · next hlo => exact ⟨[], s, by simp, by simp [hlo], by simp, by simp, h⟩
    · exact absurd h (by simp)
  | succ n ih =>
    intro lo s r h
    match s with
    | [] =>
      simp only [gapGreedy] at h
      split at h
      · next hlo => exact ⟨[], [], by simp, by simp [hlo], by simp, by simp, h⟩
      · exact absurd h (by simp)
    | c :: s' =>
      simp only [gapGreedy] at h
      by_cases hc : dotM c = true
      · rw [if_pos hc, optionMatch_eq_some] at h
        rcases h with h | ⟨_, h⟩
        · obtain ⟨g, t, hs, hlo, hhi, hdot, hf⟩ := ih (lo - 1) s' r h
          refine ⟨c :: g, t, by simp [hs], by simp; omega, by simp; omega, ?_, hf⟩
          intro x hx
          rcases List.mem_cons.mp hx with h1 | h2
          · exact h1 ▸ hc
          · exact hdot x h2
        · split at h
          · next hlo => exact ⟨[], c :: s', by simp, by simp [hlo], by simp, by simp, h⟩
          · exact absurd h (by simp)
      · rw [if_neg hc] at h
        split at h
        · next hlo => exact ⟨[], c :: s', by simp, by simp [hlo], by simp, by simp, h⟩
        · exact absurd h (by simp)

theorem gapGreedy_isSome_zero (f : List Char → Option (List Char)) :
    ∀ hi s, (f s).isSome → (gapGreedy f 0 hi s).isSome := by
  intro hi
  induction hi with
  | zero => intro s hf; simpa [gapGreedy] using hf
  | succ n ih =>
    intro s hf
    match s with
    | [] => simpa [gapGreedy] using hf
    | c :: s' =>
      simp only [gapGreedy]
      by_cases hc : dotM c = true
      · rw [if_pos hc]
        cases hg : gapGreedy f 0 n s' with
        | some r => simp
        | none => simpa using hf
      · rw [if_neg hc]; simpa using hf

theorem gapGreedy_complete (f : List Char → Option (List Char)) :
    ∀ g lo hi t, lo ≤ g.length → g.length ≤ hi → (∀ c ∈ g, dotM c = true) →
      (f t).isSome → (gapGreedy f lo hi (g ++ t)).isSome := by
  intro g
  induction g with
  | nil =>
    intro lo hi t hlo _ _ hf
    have hlo0 : lo = 0 := by simpa using hlo
    subst hlo0
    simpa using gapGreedy_isSome_zero f hi t hf
  | cons c g' ih =>
    intro lo hi t hlo hhi hdot hf
    have hc : dotM c = true := hdot c (by simp)
    match hi, hhi with
    | n + 1, hhi =>
      simp only [List.cons_append, gapGreedy, if_pos hc]
      have hrec : (gapGreedy f (lo - 1) n (g' ++ t)).isSome :=
        ih (lo - 1) n t (by simp at hlo ⊢; omega) (by simp at hhi ⊢; omega)
          (fun x hx => hdot x (by simp [hx])) hf
      cases hg : gapGreedy f (lo - 1) n (g' ++ t) with
      | some r => simp
      | none => rw [hg] at hrec; simp at hrec

theorem matchSegs_sound :
    ∀ segs s r, matchSegs segs s = some r →
      ∃ pre, s = pre ++ r ∧ SegsMatch segs pre := by
  intro segs
  induction segs with
  | nil =>
    intro s r h
    simp only [matchSegs, Option.some.injEq] at h
    exact ⟨[], by simp [h], rfl⟩
  | cons seg rest ih =>
    intro s r h
    match seg, s with
    | Seg.lit c, [] => exact absurd h (by simp [matchSegs])
    | Seg.lit c, x :: s' =>
      simp only [matchSegs] at h
      split at h
      · next hx =>
        obtain ⟨pre, hs, hm⟩ := ih s' r h
        exact ⟨c :: pre, by simp [hs, hx.symm], [c], pre, by simp, rfl, hm⟩
      · exact absurd h (by simp)
    | Seg.gap lo hi, s =>
      simp only [matchSegs] at h
      obtain ⟨g, t, hs, hlo, hhi, hdot, hf⟩ := gapGreedy_sound (matchSegs rest) hi lo s r h
      obtain ⟨pre, ht, hm⟩ := ih t r hf
      exact ⟨g ++ pre, by simp [hs, ht], g, pre, rfl, ⟨hlo, hhi, hdot⟩, hm⟩

theorem matchSegs_complete :
    ∀ segs pre t, SegsMatch segs pre → (matchSegs segs (pre ++ t)).isSome := by
  intro segs
  induction segs with
  | nil => intro pre t h; simp [matchSegs]
  | cons seg rest ih =>
    intro pre t h
    obtain ⟨l1, l2, rfl, h1, h2⟩ := h
    match seg, h1 with
    | Seg.lit c, h1 =>
      have : l1 = [c] := h1
      subst this
      simpa [matchSegs] using ih l2 t h2
    | Seg.gap lo hi, h1 =>
      obtain ⟨hlo, hhi, hdot⟩ := h1
      simp only [matchSegs, List.append_assoc]
      exact gapGreedy_complete (matchSegs rest) l1 lo hi (l2 ++ t) hlo hhi hdot (ih l2 t h2)

theorem matchSegs_none_no_match {segs : List Seg} {s : List Char}
    (h : matchSegs segs s = none) :
    ∀ pre t, s = pre ++ t → ¬ SegsMatch segs pre := by
  intro pre t hs hm
  have := matchSegs_complete segs pre t hm
  rw [← hs, h] at this
  simp at this

/-! ## The findall scan -/

theorem scanCountAux_succ (P : List Seg) (fuel : Nat) (s : List Char) :
    scanCountAux P (fuel + 1) s =
      match matchSegs P s with
      | some r =>
        if r.length < s.length then scanCountAux P fuel r + 1
        else
          match s with
          | [] => 1
          | _ :: t => scanCountAux P fuel t + 1
      | none =>
        match s with
        | [] => 0
        | _ :: t => scanCountAux P fuel t := rfl

theorem scanCountAux_fuel (P : List Seg) :
    ∀ n m s, s.length < n → s.length < m →
      scanCountAux P n s = scanCountAux P m s := by
  intro n
  induction n with
  | zero => intro m s hn; omega
  | succ n ih =>
    intro m s hn hm
    match m, hm with
    | m' + 1, hm =>
      rw [scanCountAux_succ, scanCountAux_succ]
      cases hms : matchSegs P s with
      | some r =>
        dsimp only
        by_cases hr : r.length < s.length
        · rw [if_pos hr, if_pos hr, ih m' r (by omega) (by omega)]
        · rw [if_neg hr, if_neg hr]
          cases s with
          | nil => rfl
          | cons x t =>
            dsimp only
            rw [ih m' t (by simp at hn; omega) (by simp at hm; omega)]
      | none =>
        cases s with
        | nil => rfl
        | cons x t =>
          dsimp only
          exact ih m' t (by simp at hn; omega) (by simp at hm; omega)

theorem scanCount_some_lt {P : List Seg} {s r : List Char}
    (h : matchSegs P s = some r) (hlt : r.length < s.length) :
    scanCount P s = scanCount P r + 1 := by
  unfold scanCount
  rw [scanCountAux_succ, h]
  dsimp only
  rw [if_pos hlt, scanCountAux_fuel P s.length (r.length + 1) r (by omega) (by omega)]

theorem scanCount_none_nil {P : List Seg} (h : matchSegs P [] = none) :
    scanCount P [] = 0 := by
  unfold scanCount
  rw [scanCountAux_succ, h]

theorem scanCount_none_cons {P : List Seg} {x : Char} {t : List Char}
    (h : matchSegs P (x :: t) = none) :
    scanCount P (x :: t) = scanCount P t := by
  unfold scanCount
  rw [scanCountAux_succ, h]
  dsimp only
  exact scanCountAux_fuel P (x :: t).length (t.length + 1) t (by simp) (by omega)

theorem scanCount_some_ge {P : List Seg} {x : Char} {t r : List Char}
    (h : matchSegs P (x :: t) = some r) (hge : ¬ r.length < (x :: t).length) :
    scanCount P (x :: t) = scanCount P t + 1 := by
  unfold scanCount
  rw [scanCountAux_succ, h]
  dsimp only
  rw [if_neg hge, scanCountAux_fuel P (x :: t).length (t.length + 1) t (by simp) (by omega)]

/-! ## Structure of the eight-cysteine pattern -/

theorem forall_dotM_iff (g : List Char) :
    (∀ c ∈ g, dotM c = true) ↔ (∀ c ∈ g, c ≠ '\n') := by
  constructor <;> intro h c hc <;> have hcc := h c hc <;> simpa [dotM] using hcc

/-- Complete characterization of the strings the compiled motif pattern
can consume: seven isolated literal cysteines plus the adjacent `CC`
pair, with spacers of the stated bounds; every spacer accepts any
character other than a newline (so in particular any residue symbol,
including `C` itself), and the literal positions accept exactly the
upper-case character `C`. -/
theorem segsMatch_eight_iff {pre : List Char} :
    SegsMatch eight_cysteine_motif_regex pre ↔
      ∃ g1 g2 g3 g4 g5 g6 : List Char,
        pre = 'C' :: (g1 ++ 'C' :: (g2 ++ 'C' :: 'C' :: (g3 ++ 'C' ::
          (g4 ++ 'C' :: (g5 ++ 'C' :: (g6 ++ ['C'])))))) ∧
        2 ≤ g1.length ∧ g1.length ≤ 70 ∧ (∀ c ∈ g1, c ≠ '\n') ∧
        2 ≤ g2.length ∧ g2.length ≤ 70 ∧ (∀ c ∈ g2, c ≠ '\n') ∧
        2 ≤ g3.length ∧ g3.length ≤ 70 ∧ (∀ c ∈ g3, c ≠ '\n') ∧
        g4.length ≤ 70 ∧ (∀ c ∈ g4, c ≠ '\n') ∧
        2 ≤ g5.length ∧ g5.length ≤ 70 ∧ (∀ c ∈ g5, c ≠ '\n') ∧
        2 ≤ g6.length ∧ g6.length ≤ 70 ∧ (∀ c ∈ g6, c ≠ '\n') := by
  constructor
  · intro h
    simp only [eight_cysteine_motif_regex, SegsMatch, SegMatches] at h
    obtain ⟨a1, l1, rfl, rfl, g1, l2, rfl, ⟨hg1a, hg1b, hg1c⟩,
      a2, l3, rfl, rfl, g2, l4, rfl, ⟨hg2a, hg2b, hg2c⟩,
      a3, l5, rfl, rfl, a4, l6, rfl, rfl, g3, l7, rfl, ⟨hg3a, hg3b, hg3c⟩,
      a5, l8, rfl, rfl, g4, l9, rfl, ⟨hg4a, hg4b, hg4c⟩,
      a6, l10, rfl, rfl, g5, l11, rfl, ⟨hg5a, hg5b, hg5c⟩,
      a7, l12, rfl, rfl, g6, l13, rfl, ⟨hg6a, hg6b, hg6c⟩,
      a8, l14, rfl, rfl, rfl⟩ := h
    refine ⟨g1, g2, g3, g4, g5, g6, by simp, hg1a, hg1b, (forall_dotM_iff g1).mp hg1c,
      hg2a, hg2b, (forall_dotM_iff g2).mp hg2c, hg3a, hg3b, (forall_dotM_iff g3).mp hg3c,
      hg4b, (forall_dotM_iff g4).mp hg4c, hg5a, hg5b, (forall_dotM_iff g5).mp hg5c,
      hg6a, hg6b, (forall_dotM_iff g6).mp hg6c⟩
  · rintro ⟨g1, g2, g3, g4, g5, g6, rfl, hg1a, hg1b, hg1c, hg2a, hg2b, hg2c,
      hg3a, hg3b, hg3c, hg4b, hg4c, hg5a, hg5b, hg5c, hg6a, hg6b, hg6c⟩
    simp only [eight_cysteine_motif_regex, SegsMatch, SegMatches]
    exact ⟨['C'], _, rfl, rfl, g1, _, rfl, ⟨hg1a, hg1b, (forall_dotM_iff g1).mpr hg1c⟩,
      ['C'], _, rfl, rfl, g2, _, rfl, ⟨hg2a, hg2b, (forall_dotM_iff g2).mpr hg2c⟩,
      ['C'], _, rfl, rfl, ['C'], _, rfl, rfl, g3, _, rfl,
      ⟨hg3a, hg3b, (forall_dotM_iff g3).mpr hg3c⟩,
      ['C'], _, rfl, rfl, g4, _, rfl, ⟨by simp, hg4b, (forall_dotM_iff g4).mpr hg4c⟩,
      ['C'], _, rfl, rfl, g5, _, rfl, ⟨hg5a, hg5b, (forall_dotM_iff g5).mpr hg5c⟩,
      ['C'], _, rfl, rfl, g6, _, rfl, ⟨hg6a, hg6b, (forall_dotM_iff g6).mpr hg6c⟩,
      ['C'], [], rfl, rfl, rfl⟩

theorem segsMatch_eight_count {pre : List Char}
    (h : SegsMatch eight_cysteine_motif_regex pre) : 8 ≤ pre.count 'C' := by
  obtain ⟨g1, g2, g3, g4, g5, g6, rfl, -⟩ := segsMatch_eight_iff.mp h
  simp [List.count_cons, List.count_append]
  omega

theorem segsMatch_eight_ne_nil {pre : List Char}
    (h : SegsMatch eight_cysteine_motif_regex pre) : pre ≠ [] := by
  obtain ⟨g1, g2, g3, g4, g5, g6, rfl, -⟩ := segsMatch_eight_iff.mp h
  simp

theorem matchSegs_eight_nil : matchSegs eight_cysteine_motif_regex [] = none := rfl

theorem scanCount_eight_mul_le :
    ∀ n s, s.length ≤ n →
      8 * scanCount eight_cysteine_motif_regex s ≤ s.count 'C' := by
  intro n
  induction n with
  | zero =>
    intro s hs
    have hnil : s = [] := List.length_eq_zero.mp (by omega)
    subst hnil
    simp [scanCount_none_nil matchSegs_eight_nil]
  | succ n ih =>
    intro s hs
    cases hms : matchSegs eight_cysteine_motif_regex s with
    | some r =>
      obtain ⟨pre, hspre, hm⟩ := matchSegs_sound _ s r hms
      have h8 : 8 ≤ pre.count 'C' := segsMatch_eight_count hm
      have hpre : pre ≠ [] := segsMatch_eight_ne_nil hm
      have hplen : 1 ≤ pre.length := by
        cases pre with
        | nil => exact absurd rfl hpre
        | cons a b => simp
      have hlt : r.length < s.length := by rw [hspre]; simp; omega
      rw [scanCount_some_lt hms hlt]
      have hihr := ih r (by rw [hspre] at hs; simp at hs; omega)
      rw [hspre, List.count_append]
      omega
    | none =>
      cases s with
      | nil => simp [scanCount_none_nil hms]
      | cons x t =>
        rw [scanCount_none_cons hms]
        have hiht := ih t (by simp at hs; omega)
        have hmono : t.count 'C' ≤ (x :: t).count 'C' :=
          (List.sublist_cons_self x t).count_le 'C'
        omega

/-- The full behaviour of the `findall` loop on one input: either the
pattern occurs nowhere in the input and the count is zero, or the input
splits as `a ++ pre ++ r` where `pre` is the leftmost occurrence, the
matcher consumes exactly `pre` at that anchor, and the count is one plus
the count of the remainder `r` (the scan resumes strictly after the
matched span). -/
theorem scan_characterization :
    ∀ n s, s.length ≤ n →
      (countMotifOccurrences s = 0 ∧
        ∀ a pre b, s = a ++ pre ++ b →
          ¬ SegsMatch eight_cysteine_motif_regex pre) ∨
      (∃ a pre r, s = a ++ pre ++ r ∧
        SegsMatch eight_cysteine_motif_regex pre ∧
        (∀ a' pre' b', s = a' ++ pre' ++ b' →
          SegsMatch eight_cysteine_motif_regex pre' → a.length ≤ a'.length) ∧
        matchSegs eight_cysteine_motif_regex (pre ++ r) = some r ∧
        countMotifOccurrences s = countMotifOccurrences r + 1) := by
  intro n
  induction n with
  | zero =>
    intro s hs
    have hnil : s = [] := List.length_eq_zero.mp (by omega)
    subst hnil
    left
    constructor
    · exact scanCount_none_nil matchSegs_eight_nil
    · intro a pre b heq hm
      have : pre = [] := by
        have := congrArg List.length heq
        simp at this
        exact List.length_eq_zero.mp (by omega)
      exact segsMatch_eight_ne_nil hm this
  | succ n ih =>
    intro s hs
    cases hms : matchSegs eight_cysteine_motif_regex s with
    | some r =>
      right
      obtain ⟨pre, hspre, hm⟩ := matchSegs_sound _ s r hms
      have hpre : pre ≠ [] := segsMatch_eight_ne_nil hm
      have hplen : 1 ≤ pre.length := by
        cases pre with
        | nil => exact absurd rfl hpre
        | cons a b => simp
      have hlt : r.length < s.length := by rw [hspre]; simp; omega
      refine ⟨[], pre, r, by simpa using hspre, hm, fun a' pre' b' _ _ => by simp,
        hspre ▸ hms, ?_⟩
      exact scanCount_some_lt hms hlt
    | none =>
      cases s with
      | nil =>
        left
        refine ⟨scanCount_none_nil matchSegs_eight_nil, ?_⟩
        intro a pre b heq hm
        have hprenil : pre = [] := by
          have := congrArg List.length heq
          simp at this
          exact List.length_eq_zero.mp (by omega)
        exact segsMatch_eight_ne_nil hm hprenil
      | cons x t =>
        have hnom : ∀ pre b, x :: t = pre ++ b →
            ¬ SegsMatch eight_cysteine_motif_regex pre :=
          fun pre b heq => matchSegs_none_no_match hms pre b heq
        rcases ih t (by simp at hs; omega) with ⟨h0, hno⟩ | ⟨a, pre, r, heq, hm, hleft, hmeq, hcount⟩
        · left
          refine ⟨by rw [show countMotifOccurrences (x :: t) =
              scanCount eight_cysteine_motif_regex (x :: t) from rfl,
              scanCount_none_cons hms]; exact h0, ?_⟩
          intro a pre b heq hmm
          cases a with
          | nil => exact hnom pre b (by simpa using heq) hmm
          | cons y a' =>
            simp only [List.cons_append, List.cons.injEq] at heq
            exact hno a' pre b heq.2 hmm
        · right
          refine ⟨x :: a, pre, r, by simp [heq], hm, ?_, hmeq, ?_⟩
          · intro a' pre' b' heq' hm'
            cases a' with
            | nil => exact absurd hm' (hnom pre' b' (by simpa using heq'))
            | cons y a'' =>
              simp only [List.cons_append, List.cons.injEq] at heq'
              have := hleft a'' pre' b' heq'.2 hm'
              simp
              omega
          · rw [show countMotifOccurrences (x :: t) =
              scanCount eight_cysteine_motif_regex (x :: t) from rfl,
              scanCount_none_cons hms]
            exact hcount

/-! ## Concatenation and boundary crossing -/

/-- Boundary condition for concatenation: anchored at any nonempty
suffix of `s1`, the matcher behaves the same whether or not `s2` is
appended — no match of the pattern crosses the `s1`/`s2` boundary. -/
def noCrossB (P : List Seg) (s1 s2 : List Char) : Bool :=
  s1.tails.all fun t1 =>
    t1.isEmpty || matchSegs P (t1 ++ s2) == (matchSegs P t1).map (· ++ s2)

theorem noCrossB_spec {P : List Seg} {s1 s2 : List Char}
    (h : noCrossB P s1 s2 = true) :
    ∀ t1, t1 <:+ s1 → t1 ≠ [] →
      matchSegs P (t1 ++ s2) = (matchSegs P t1).map (· ++ s2) := by
  intro t1 ht1 hne
  have := List.all_eq_true.mp h t1 ((List.mem_tails _ _).mpr ht1)
  cases t1 with
  | nil => exact absurd rfl hne
  | cons y t' => simpa using this

theorem scanCount_append_of_noCross (P : List Seg) (s2 : List Char)
    (h0 : matchSegs P [] = none) :
    ∀ n s1, s1.length ≤ n →
      (∀ t1, t1 <:+ s1 → t1 ≠ [] →
        matchSegs P (t1 ++ s2) = (matchSegs P t1).map (· ++ s2)) →
      scanCount P (s1 ++ s2) = scanCount P s1 + scanCount P s2 := by
  intro n
  induction n with
  | zero =>
    intro s1 hs1 _
    have hnil : s1 = [] := List.length_eq_zero.mp (by omega)
    subst hnil
    simp [scanCount_none_nil h0]
  | succ n ih =>
    intro s1 hs1 hnc
    cases s1 with
    | nil => simp [scanCount_none_nil h0]
    | cons x t =>
      have hx := hnc (x :: t) (List.suffix_refl _) (by simp)
      cases hms : matchSegs P (x :: t) with
      | some r =>
        have hms2 : matchSegs P ((x :: t) ++ s2) = some (r ++ s2) := by
          rw [hx, hms, Option.map_some']
        obtain ⟨pre, hspre, -⟩ :
            ∃ pre, x :: t = pre ++ r ∧ SegsMatch P pre := matchSegs_sound P _ r hms
        have hsuffix : r <:+ x :: t := ⟨pre, hspre.symm⟩
        by_cases hr : r.length < (x :: t).length
        · rw [scanCount_some_lt hms2 (by simp at hr ⊢; omega), scanCount_some_lt hms hr]
          have hrec := ih r (by simp at hs1 hr ⊢; omega)
            (fun t1 ht1 hne => hnc t1 (ht1.trans hsuffix) hne)
          omega
        · rw [scanCount_some_ge hms hr]
          rw [show (x :: t) ++ s2 = x :: (t ++ s2) from rfl] at hms2
          rw [show (x :: t) ++ s2 = x :: (t ++ s2) from rfl,
            scanCount_some_ge hms2 (by simp at hr ⊢; omega)]
          have hrec := ih t (by simp at hs1; omega)
            (fun t1 ht1 hne => hnc t1 (ht1.trans (List.suffix_cons x t)) hne)
          omega
      | none =>
        have hms2 : matchSegs P ((x :: t) ++ s2) = none := by
          rw [hx, hms]; rfl
        rw [scanCount_none_cons hms]
        rw [show (x :: t) ++ s2 = x :: (t ++ s2) from rfl] at hms2 ⊢
        rw [scanCount_none_cons hms2]
        exact ih t (by simp at hs1; omega)
          (fun t1 ht1 hne => hnc t1 (ht1.trans (List.suffix_cons x t)) hne)

/-! ## Record store lemmas -/

theorem mem_key_cons {a b : List Char} {l : List (List Char × List Char)}
    {id : List Char} :
    (∃ v, (id, v) ∈ (a, b) :: l) ↔ id = a ∨ ∃ v, (id, v) ∈ l := by
  constructor
  · rintro ⟨v, hv⟩
    rcases List.mem_cons.mp hv with h | h
    · simp only [Prod.mk.injEq] at h
      exact Or.inl h.1
    · exact Or.inr ⟨v, h⟩
  · rintro (rfl | ⟨v, hv⟩)
    · exact ⟨b, by simp⟩
    · exact ⟨v, by simp [hv]⟩

theorem dictInsert_mem :
    ∀ (d : List (List Char × List Char)) (k v0 id : List Char),
      (∃ v, (id, v) ∈ dictInsert d k v0) ↔ id = k ∨ ∃ v, (id, v) ∈ d := by
  intro d
  induction d with
  | nil => intro k v0 id; simp [dictInsert, mem_key_cons]
  | cons p d' ih =>
    intro k v0 id
    obtain ⟨k', v'⟩ := p
    simp only [dictInsert]
    by_cases hk : k' = k
    · rw [if_pos hk]
      subst hk
      rw [mem_key_cons, mem_key_cons]
      tauto
    · rw [if_neg hk, mem_key_cons, mem_key_cons, ih k v0 id]
      tauto

theorem dictInsert_lookup :
    ∀ (d : List (List Char × List Char)) (k v : List Char),
      (dictInsert d k v).lookup k = some v := by
  intro d
  induction d with
  | nil => intro k v; simp [dictInsert, List.lookup]
  | cons p d' ih =>
    intro k v
    obtain ⟨k', v'⟩ := p
    simp only [dictInsert]
    by_cases hk : k' = k
    · rw [if_pos hk]
      subst hk
      simp [List.lookup]
    · rw [if_neg hk]
      have hbk : (k == k') = false := by
        simp only [beq_eq_false_iff_ne]
        exact fun e => hk e.symm
      simp [List.lookup, hbk, ih]

theorem flushRecord_mem {prot : List (List Char × List Char)}
    {cid : Option (List Char)} {cseq : List (List Char)} {id : List Char} :
    (∃ v, (id, v) ∈ flushRecord prot cid cseq) ↔
      (∃ v, (id, v) ∈ prot) ∨ (cid = some id ∧ id ≠ [] ∧ cseq ≠ []) := by
  cases cid with
  | none => simp [flushRecord]
  | some pid =>
    simp only [flushRecord]
    by_cases hp : pid = [] ∨ cseq = []
    · rw [if_pos hp]
      have : ¬ (some pid = some id ∧ id ≠ [] ∧ cseq ≠ []) := by
        rintro ⟨hpid, hid, hseq⟩
        simp only [Option.some.injEq] at hpid
        rcases hp with h | h
        · exact hid (hpid ▸ h)
        · exact hseq h
      tauto
    · rw [if_neg hp]
      push_neg at hp
      rw [dictInsert_mem]
      constructor
      · rintro (rfl | h)
        · exact Or.inr ⟨rfl, hp.1, hp.2⟩
        · exact Or.inl h
      · rintro (h | ⟨hpid, -, -⟩)
        · exact Or.inr h
        · simp only [Option.some.injEq] at hpid
          exact Or.inl hpid.symm

/-! ## Which inputs produce a record -/

/-- The lines ahead contain, before any header line, at least one
non-blank non-header line: the pending record will collect at least one
sequence line before the next header or end of input. -/
def collectsSeq (lines : List (List Char)) : Prop :=
  ∃ pre l post, lines = pre ++ l :: post ∧
    (∀ l' ∈ pre, isHeaderLine l' = false) ∧
    isHeaderLine l = false ∧ isBlankLine l = false

/-- The input contains a header line whose (non-empty) identifier token
is `id`, followed — before the next header line or end of input — by at
least one non-blank sequence line. -/
def HasRecord (lines : List (List Char)) (id : List Char) : Prop :=
  ∃ pre h post, lines = pre ++ h :: post ∧ isHeaderLine h = true ∧
    headerId (pyStrip h) = id ∧ id ≠ [] ∧ collectsSeq post

theorem collectsSeq_nil : ¬ collectsSeq [] := by
  rintro ⟨pre, m, post, heq, -⟩
  simp at heq

theorem hasRecord_nil {id : List Char} : ¬ HasRecord [] id := by
  rintro ⟨pre, h, post, heq, -⟩
  simp at heq

theorem collectsSeq_cons {l : List Char} {rest : List (List Char)} :
    collectsSeq (l :: rest) ↔
      isHeaderLine l = false ∧ (isBlankLine l = false ∨ collectsSeq rest) := by
  constructor
  · rintro ⟨pre, m, post, heq, hpre, hh, hb⟩
    cases pre with
    | nil =>
      simp only [List.nil_append, List.cons.injEq] at heq
      obtain ⟨rfl, rfl⟩ := heq
      exact ⟨hh, Or.inl hb⟩
    | cons p pre' =>
      simp only [List.cons_append, List.cons.injEq] at heq
      obtain ⟨rfl, hrest⟩ := heq
      exact ⟨hpre l (by simp),
        Or.inr ⟨pre', m, post, hrest, fun x hx => hpre x (by simp [hx]), hh, hb⟩⟩
  · rintro ⟨hh, hb | hc⟩
    · exact ⟨[], l, rest, rfl, by simp, hh, hb⟩
    · obtain ⟨pre, m, post, heq, hpre, hh', hb'⟩ := hc
      refine ⟨l :: pre, m, post, by simp [heq], ?_, hh', hb'⟩
      intro x hx
      rcases List.mem_cons.mp hx with rfl | hx'
      · exact hh
      · exact hpre x hx'

theorem hasRecord_cons {l : List Char} {rest : List (List Char)} {id : List Char} :
    HasRecord (l :: rest) id ↔
      (isHeaderLine l = true ∧ headerId (pyStrip l) = id ∧ id ≠ [] ∧
        collectsSeq rest) ∨ HasRecord rest id := by
  constructor
  · rintro ⟨pre, h, post, heq, hh, hid, hne, hcol⟩
    cases pre with
    | nil =>
      simp only [List.nil_append, List.cons.injEq] at heq
      obtain ⟨rfl, rfl⟩ := heq
      exact Or.inl ⟨hh, hid, hne, hcol⟩
    | cons p pre' =>
      simp only [List.cons_append, List.cons.injEq] at heq
      obtain ⟨rfl, hrest⟩ := heq
      exact Or.inr ⟨pre', h, post, hrest, hh, hid, hne, hcol⟩
  · rintro (⟨hh, hid, hne, hcol⟩ | ⟨pre, h, post, heq, hh, hid, hne, hcol⟩)
    · exact ⟨[], l, rest, rfl, hh, hid, hne, hcol⟩
    · exact ⟨l :: pre, h, post, by simp [heq], hh, hid, hne, hcol⟩

theorem flushRecord_some (p : List (List Char × List Char)) (pid : List Char)
    (q : List (List Char)) :
    flushRecord p (some pid) q =
      if pid = [] ∨ q = [] then p else dictInsert p pid q.flatten := rfl

theorem parseLines_nil (st : ParseState) :
    parseLines [] st = flushRecord st.proteins st.currentId st.currentSeq := rfl

theorem parseLines_cons (l : List Char) (rest : List (List Char)) (st : ParseState) :
    parseLines (l :: rest) st = parseLines rest (parseStep st l) := rfl

theorem parseLines_append (xs ys : List (List Char)) (st : ParseState) :
    parseLines (xs ++ ys) st = parseLines ys (xs.foldl parseStep st) := by
  simp [parseLines, List.foldl_append]

/-- State invariant of the parsing loop: an identifier appears in the
final collection exactly when it is already stored, or the pending record
completes with it, or a later header record produces it. -/
theorem parseLines_mem :
    ∀ (lines : List (List Char)) (st : ParseState) (id : List Char),
      (∃ v, (id, v) ∈ parseLines lines st) ↔
        (∃ v, (id, v) ∈ st.proteins) ∨
        (st.currentId = some id ∧ id ≠ [] ∧
          (st.currentSeq ≠ [] ∨ collectsSeq lines)) ∨
        HasRecord lines id := by
  intro lines
  induction lines with
  | nil =>
    intro st id
    rw [parseLines_nil, flushRecord_mem]
    have h1 := collectsSeq_nil
    have h2 : ¬ HasRecord [] id := hasRecord_nil
    tauto
  | cons l rest ih =>
    intro st id
    rw [parseLines_cons, ih]
    by_cases hb : pyStrip l = []
    · have hstep : parseStep st l = st := by simp [parseStep, hb]
      have hH : isHeaderLine l = false := by simp [isHeaderLine, hb]
      have hB : isBlankLine l = true := by simp [isBlankLine, hb]
      rw [hstep, collectsSeq_cons, hasRecord_cons]
      simp only [hH, hB]
      tauto
    · by_cases hh : (pyStrip l).head? = some '>'
      · have hstep : parseStep st l =
            ⟨flushRecord st.proteins st.currentId st.currentSeq,
             some (headerId (pyStrip l)), []⟩ := by
          simp [parseStep, hb, hh]
        have hH : isHeaderLine l = true := by simp [isHeaderLine, hh]
        rw [hstep]
        dsimp only
        rw [flushRecord_mem, collectsSeq_cons, hasRecord_cons]
        simp only [hH, Option.some.injEq, Bool.true_eq_false, false_and, or_false,
          ne_eq, List.cons_ne_nil, not_false_eq_true, true_and, and_true,
          not_true_eq_false, false_or]
        tauto
      · have hstep : parseStep st l =
            ⟨st.proteins, st.currentId, st.currentSeq ++ [pyStrip l]⟩ := by
          simp [parseStep, hb, hh]
        have hH : isHeaderLine l = false := by simp [isHeaderLine, hh]
        have hB : isBlankLine l = false := by simp [isBlankLine, hb]
        rw [hstep]
        dsimp only
        rw [collectsSeq_cons, hasRecord_cons]
        have happ : st.currentSeq ++ [pyStrip l] ≠ [] := by simp
        simp only [hH, hB, happ, Bool.false_eq_true, false_and, false_or, or_false,
          eq_self_iff_true, true_and, true_or, or_true, and_true, ne_eq,
          not_false_eq_true]

/-- Processing a header line followed by one sequence line stores that
record under its identifier, whatever the prior state was. -/
theorem parseLines_header_seq (st : ParseState) (h s : List Char)
    (hhh : (pyStrip h).head? = some '>') (hsne : pyStrip s ≠ [])
    (hshh : ¬ (pyStrip s).head? = some '>')
    (hidne : headerId (pyStrip h) ≠ []) :
    parseLines [h, s] st =
      dictInsert (flushRecord st.proteins st.currentId st.currentSeq)
        (headerId (pyStrip h)) (pyStrip s) := by
  have hhne : pyStrip h ≠ [] := by
    intro e
    rw [e] at hhh
    simp at hhh
  rw [parseLines_cons, parseLines_cons, parseLines_nil]
  have h1 : parseStep st h =
      ⟨flushRecord st.proteins st.currentId st.currentSeq,
       some (headerId (pyStrip h)), []⟩ := by
    simp [parseStep, hhne, hhh]
  rw [h1]
  have h2 : parseStep
      (⟨flushRecord st.proteins st.currentId st.currentSeq,
        some (headerId (pyStrip h)), []⟩ : ParseState) s =
      ⟨flushRecord st.proteins st.currentId st.currentSeq,
       some (headerId (pyStrip h)), [pyStrip s]⟩ := by
    simp [parseStep, hsne, hshh]
  rw [h2]
  dsimp only
  rw [flushRecord_some, if_neg (by simp [hidne])]
  simp

theorem dropWhile_head_false {p : Char → Bool} :
    ∀ (xs : List Char) (y : Char) (ys : List Char),
      xs.dropWhile p = y :: ys → p y = false := by
  intro xs
  induction xs with
  | nil => intro y ys h; simp at h
  | cons a t ih =>
    intro y ys h
    by_cases ha : p a = true
    · rw [List.dropWhile_cons_of_pos ha] at h
      exact ih y ys h
    · rw [List.dropWhile_cons_of_neg ha] at h
      obtain ⟨rfl, -⟩ := List.cons.injEq .. |>.mp h
      exact Bool.eq_false_iff.mpr ha

theorem headerId_characterization (l : List Char) :
    headerId l <+: l.drop 1 ∧ (∀ c ∈ headerId l, c ≠ ' ') ∧
      ∀ rest, l.drop 1 = headerId l ++ rest → rest ≠ [] →
        rest.head? = some ' ' := by
  refine ⟨List.takeWhile_prefix _, ?_, ?_⟩
  · intro c hc
    have hmem := List.mem_takeWhile_imp hc
    simpa using hmem
  · intro rest heq hne
    have hdec : headerId l ++ (l.drop 1).dropWhile (fun c => c != ' ') =
        l.drop 1 := List.takeWhile_append_dropWhile _ _
    have hcomb : headerId l ++ (l.drop 1).dropWhile (fun c => c != ' ') =
        headerId l ++ rest := by rw [hdec, heq]
    have hrest : (l.drop 1).dropWhile (fun c => c != ' ') = rest :=
      List.append_cancel_left hcomb
    match rest, hne with
    | y :: ys, _ =>
      have hy := dropWhile_head_false (l.drop 1) y ys hrest
      have hy' : y = ' ' := by simpa using hy
      simp [hy']

/-- A minimal-size instance of the motif (count 1), used for the
concatenation counterexample: spacers `aa` throughout and the zero-length
inner spacer. -/
def shortMotif : List Char := "CaaCaaCCaaCCaaCaaC".data

/-- The same motif instance preceded by 72 non-cysteine residues, far
enough that no single match can bridge from a cysteine of a preceding
string into this one. -/
def paddedMotif : List Char := List.replicate 72 'a' ++ shortMotif

/-! ## Claims -/

/-- C1: the motif engine's fixed pattern is exactly `C`, spacer 2..70,
`C`, spacer 2..70, `CC`, spacer 2..70, `C`, spacer 0..70, `C`, spacer
2..70, `C`, spacer 2..70, `C`: a string matches the compiled pattern iff
it has exactly this shape.  The literal positions demand exactly the
upper-case character `C` (case-sensitive); each spacer position accepts
any character other than a newline — every residue symbol, including `C`
itself — and only the fourth spacer (inside the CXC segment) admits zero
residues, all others requiring at least two. -/
theorem motif_pattern_exact_shape :
    ∀ pre : List Char,
      SegsMatch eight_cysteine_motif_regex pre ↔
        ∃ g1 g2 g3 g4 g5 g6 : List Char,
          pre = 'C' :: (g1 ++ 'C' :: (g2 ++ 'C' :: 'C' :: (g3 ++ 'C' ::
            (g4 ++ 'C' :: (g5 ++ 'C' :: (g6 ++ ['C'])))))) ∧
          2 ≤ g1.length ∧ g1.length ≤ 70 ∧ (∀ c ∈ g1, c ≠ '\n') ∧
          2 ≤ g2.length ∧ g2.length ≤ 70 ∧ (∀ c ∈ g2, c ≠ '\n') ∧
          2 ≤ g3.length ∧ g3.length ≤ 70 ∧ (∀ c ∈ g3, c ≠ '\n') ∧
          g4.length ≤ 70 ∧ (∀ c ∈ g4, c ≠ '\n') ∧
          2 ≤ g5.length ∧ g5.length ≤ 70 ∧ (∀ c ∈ g5, c ≠ '\n') ∧
          2 ≤ g6.length ∧ g6.length ≤ 70 ∧ (∀ c ∈ g6, c ≠ '\n') :=
  fun _ => segsMatch_eight_iff

/-- C2: on every residue string the motif counter totally computes a
(non-negative, by type) number of non-overlapping matches, scanning left
to right: either no occurrence of the pattern exists anywhere and the
count is 0, or the string splits as `a ++ pre ++ r` with `pre` a
leftmost occurrence (no occurrence starts earlier), the greedy
backtracking matcher consumes exactly `pre` there, and the count is one
plus the count of the remainder `r` — the scan resumes strictly after
the matched span. -/
theorem motif_count_scan_semantics (s : List Char) :
    (countMotifOccurrences s = 0 ∧
      ∀ a pre b, s = a ++ pre ++ b →
        ¬ SegsMatch eight_cysteine_motif_regex pre) ∨
    (∃ a pre r, s = a ++ pre ++ r ∧
      SegsMatch eight_cysteine_motif_regex pre ∧
      (∀ a' pre' b', s = a' ++ pre' ++ b' →
        SegsMatch eight_cysteine_motif_regex pre' → a.length ≤ a'.length) ∧
      matchSegs eight_cysteine_motif_regex (pre ++ r) = some r ∧
      countMotifOccurrences s = countMotifOccurrences r + 1) :=
  scan_characterization s.length s (le_refl _)

/-- C3: parsing emits a record for an identifier exactly when some
header line establishes that non-empty identifier and at least one
non-blank, non-header line follows it before the next header or the end
of input.  In particular sequence lines before any header never create a
record (they are silently dropped), and an input whose lines are all
headers or blank — including the empty input — parses to the empty
collection. -/
theorem parse_records_iff (lines : List (List Char)) :
    (∀ id, (∃ v, (id, v) ∈ parse_fasta (some lines)) ↔ HasRecord lines id) ∧
    ((∀ l ∈ lines, isHeaderLine l = true ∨ isBlankLine l = true) →
      parse_fasta (some lines) = []) := by
  have hmem : ∀ id, (∃ v, (id, v) ∈ parse_fasta (some lines)) ↔
      HasRecord lines id := by
    intro id
    show (∃ v, (id, v) ∈ parseLines lines ⟨[], none, []⟩) ↔ _
    rw [parseLines_mem]
    simp
  refine ⟨hmem, ?_⟩
  intro hall
  by_contra hne
  obtain ⟨⟨id, v⟩, hmemv⟩ := List.exists_mem_of_ne_nil _ hne
  obtain ⟨pre, h, post, heq, hh, -, -, ⟨pre2, m, post2, heq2, -, hmh, hmb⟩⟩ :=
    (hmem id).mp ⟨v, hmemv⟩
  have hm_mem : m ∈ lines := by
    rw [heq, heq2]
    simp
  rcases hall m hm_mem with h1 | h1
  · simp [h1] at hmh
  · simp [h1] at hmb

/-- C3 witness: a header-only input parses to the empty collection. -/
theorem parse_records_iff_witness :
    parse_fasta (some [">A".data, ">B".data]) = [] :=
  (parse_records_iff [">A".data, ">B".data]).2 (by decide)

/-- C4: the motif pipeline's result contains a pair `(id, n)` exactly
when the input collection has a record `(id, seq)` whose motif
occurrence count equals `n` and `n` is at least 2: only records meeting
the threshold are retained, and the stored value is the exact count, not
a boolean. -/
theorem detect_threshold_iff (proteins_data : List (List Char × List Char))
    (id : List Char) (n : Nat) :
    (id, n) ∈ detect_two_or_more_8cm_motifs proteins_data ↔
      ∃ seq, (id, seq) ∈ proteins_data ∧
        countMotifOccurrences seq = n ∧ 2 ≤ n := by
  simp only [detect_two_or_more_8cm_motifs, List.mem_filterMap]
  constructor
  · rintro ⟨⟨pid, seq⟩, hmem, hf⟩
    dsimp only at hf
    by_cases h2 : 2 ≤ countMotifOccurrences seq
    · rw [if_pos h2] at hf
      simp only [Option.some.injEq, Prod.mk.injEq] at hf
      obtain ⟨rfl, rfl⟩ := hf
      exact ⟨seq, hmem, rfl, h2⟩
    · rw [if_neg h2] at hf
      exact absurd hf (by simp)
  · rintro ⟨seq, hmem, hcnt, h2⟩
    refine ⟨(id, seq), hmem, ?_⟩
    dsimp only
    rw [if_pos (by rw [hcnt]; exact h2), hcnt]

/-- C5: a missing or unreadable source (both `except` branches of
`parse_fasta`) yields the empty record collection; no exception reaches
the caller. -/
theorem parse_missing_file_empty : parse_fasta none = [] := rfl

/-- C6 counterexample: the header is split on the space character only,
not on arbitrary whitespace.  For the header line `>ab\tcd ef` the parser
stores the identifier `ab\tcd`, which still contains the tab — a
whitespace character — whereas splitting at the first whitespace
character would give `ab`. -/
theorem header_id_whitespace_counterexample :
    parse_fasta (some [">ab\tcd ef".data, "SEQ".data]) =
      [("ab\tcd".data, "SEQ".data)] ∧
    '\t' ∈ "ab\tcd".data ∧ '\t'.isWhitespace = true :=
  ⟨by decide, by decide, by decide⟩

/-- C6 (amended): the identifier stored for a header line is the
substring from just after the `>` delimiter up to (but not including)
the first occurrence of the space character `' '` — only the space
character delimits, not general whitespace: the identifier is the
longest space-free prefix of the post-delimiter remainder, and when
anything is discarded it begins with a space. -/
theorem header_id_space_delimiter (l : List Char) :
    headerId (pyStrip l) <+: (pyStrip l).drop 1 ∧
      (∀ c ∈ headerId (pyStrip l), c ≠ ' ') ∧
      ∀ rest, (pyStrip l).drop 1 = headerId (pyStrip l) ++ rest →
        rest ≠ [] → rest.head? = some ' ' :=
  headerId_characterization (pyStrip l)

/-- C6 amended witness at the header `>id desc`. -/
theorem header_id_space_delimiter_witness :
    headerId (pyStrip ">id desc".data) <+: (pyStrip ">id desc".data).drop 1 ∧
      'i' ≠ ' ' ∧ (" desc".data).head? = some ' ' :=
  ⟨(header_id_space_delimiter ">id desc".data).1,
   (header_id_space_delimiter ">id desc".data).2.1 'i' (by decide),
   (header_id_space_delimiter ">id desc".data).2.2 " desc".data
     (by decide) (by decide)⟩

set_option maxRecDepth 100000 in
/-- C7 counterexample: two copies of a string that each contain exactly
one motif match, concatenated directly (no characters, hence no extra
cysteines, added at the boundary), yield a count of 1, not ≥ 2: the
greedy matcher extends the first match across the boundary and swallows
the second motif's cysteines. -/
theorem concat_motif_merge_counterexample :
    countMotifOccurrences shortMotif = 1 ∧
    countMotifOccurrences (shortMotif ++ shortMotif) = 1 :=
  ⟨by decide, by decide⟩

/-- C7 (amended): if `s1` and `s2` each contain a motif match and no
match of the pattern crosses the concatenation boundary (the matcher,
anchored at any nonempty suffix of `s1`, behaves identically with and
without `s2` appended — guaranteed e.g. when every cysteine of `s1` is
farther than one spacer span from every cysteine of `s2`), then the
count of `s1 ++ s2` is at least 2. -/
theorem concat_motif_count_additive (s1 s2 : List Char)
    (hnc : noCrossB eight_cysteine_motif_regex s1 s2 = true)
    (h1 : 1 ≤ countMotifOccurrences s1) (h2 : 1 ≤ countMotifOccurrences s2) :
    2 ≤ countMotifOccurrences (s1 ++ s2) := by
  have hadd := scanCount_append_of_noCross eight_cysteine_motif_regex s2
    matchSegs_eight_nil s1.length s1 (le_refl _) (noCrossB_spec hnc)
  have h1' : 1 ≤ scanCount eight_cysteine_motif_regex s1 := h1
  have h2' : 1 ≤ scanCount eight_cysteine_motif_regex s2 := h2
  show 2 ≤ scanCount eight_cysteine_motif_regex (s1 ++ s2)
  omega

set_option maxRecDepth 1000000 in
/-- C7 amended witness: the motif instance concatenated with its padded
copy (separated by 72 non-cysteine residues) yields a count of at least
2. -/
theorem concat_motif_count_additive_witness :
    2 ≤ countMotifOccurrences (shortMotif ++ paddedMotif) :=
  concat_motif_count_additive shortMotif paddedMotif
    (by decide) (by decide) (by decide)

/-- C8: whatever records precede it, a final header with identifier
`id` followed by a sequence line stores that last record's sequence
under `id` — a later record silently replaces any earlier record with
the same identifier, and duplicates are not an error. -/
theorem duplicate_id_last_record_wins (lines : List (List Char))
    (h s id : List Char) (hh : isHeaderLine h = true)
    (hid : headerId (pyStrip h) = id) (hidne : id ≠ [])
    (hsh : isHeaderLine s = false) (hsb : isBlankLine s = false) :
    (parse_fasta (some (lines ++ [h, s]))).lookup id = some (pyStrip s) := by
  have hhh : (pyStrip h).head? = some '>' := by simpa [isHeaderLine] using hh
  have hsne : pyStrip s ≠ [] := by simpa [isBlankLine] using hsb
  have hshh : ¬ (pyStrip s).head? = some '>' := by simpa [isHeaderLine] using hsh
  show (parseLines (lines ++ [h, s]) ⟨[], none, []⟩).lookup id = some (pyStrip s)
  rw [parseLines_append,
    parseLines_header_seq _ h s hhh hsne hshh (by rw [hid]; exact hidne), hid]
  exact dictInsert_lookup _ id (pyStrip s)

/-- C8 witness: with an earlier record `>A` / `AAA`, a later duplicate
header `>A desc` with sequence `BBB` leaves `A` mapped to `BBB`. -/
theorem duplicate_id_last_record_wins_witness :
    (parse_fasta (some ([">A".data, "AAA".data] ++
      [">A desc".data, "BBB".data]))).lookup "A".data =
      some (pyStrip "BBB".data) :=
  duplicate_id_last_record_wins [">A".data, "AAA".data] ">A desc".data
    "BBB".data "A".data (by decide) (by decide) (by decide)
    (by decide) (by decide)

/-- C9: the cysteine-count pipeline keeps a record exactly when its
residue string contains exactly 8 occurrences of the literal,
case-sensitive character `C` (so records with 7 or 9 occurrences are
excluded); no motif or spacing logic is involved — the selection is
fully determined by the per-record count. -/
theorem eight_cysteine_filter_iff (records : List (List Char × List Char))
    (r : List Char × List Char) :
    r ∈ extract_proteins_with_eight_cysteines records ↔
      r ∈ records ∧ r.2.count 'C' = 8 := by
  simp [extract_proteins_with_eight_cysteines, List.mem_filter]

/-- C10: every match of the pattern contains at least 8 literal
cysteines and counted matches do not overlap, so the motif count is at
most the number of `C` characters divided by 8; in particular a string
with fewer than 8 `C`s yields count 0. -/
theorem motif_count_bounded_by_cysteines (s : List Char) :
    countMotifOccurrences s ≤ s.count 'C' / 8 ∧
      (s.count 'C' < 8 → countMotifOccurrences s = 0) := by
  have hmul := scanCount_eight_mul_le s.length s (le_refl _)
  have hc : countMotifOccurrences s = scanCount eight_cysteine_motif_regex s := rfl
  constructor
  · rw [hc]
    exact (Nat.le_div_iff_mul_le (by omega)).mpr (by omega)
  · intro hlt
    rw [hc]
    omega

/-- C10 witness: seven cysteines give motif count 0. -/
theorem motif_count_bounded_by_cysteines_witness :
    countMotifOccurrences "CCCCCCC".data ≤ ("CCCCCCC".data).count 'C' / 8 ∧
      countMotifOccurrences "CCCCCCC".data = 0 :=
  ⟨(motif_count_bounded_by_cysteines "CCCCCCC".data).1,
   (motif_count_bounded_by_cysteines "CCCCCCC".data).2 (by decide)⟩
